import Mathlib

/-!
Verification development for the fermi-notifier service.

The embedding models the pure computations of the repository:
* `src/gemini.rs` — the response parser turning generated text into a
  `FermiEstimation` (lines 123–166 of `generate_fermi_problem_and_solution`);
* `src/ntfy.rs` — the notification request builder of `send_notification`
  (title derivation, truncation, delay validation; lines 14–47);
* `src/main.rs` — the `handle_fermi_request` orchestration and the
  `ResponseError` mapping from `AppError` to HTTP responses.

Rust strings are modelled as `List Char` (Rust `&str` iterated by `chars()`),
so character counts, trimming and splitting are character-accurate.
-/

namespace FermiNotifier

/-- Models Rust `char::is_whitespace` (the Unicode `White_Space` property),
used by `str::trim`. -/
def isRustWhitespace (c : Char) : Bool :=
  c.val = 0x09 || c.val = 0x0A || c.val = 0x0B || c.val = 0x0C || c.val = 0x0D ||
  c.val = 0x20 || c.val = 0x85 || c.val = 0xA0 || c.val = 0x1680 ||
  (0x2000 ≤ c.val && c.val ≤ 0x200A) ||
  c.val = 0x2028 || c.val = 0x2029 || c.val = 0x202F || c.val = 0x205F || c.val = 0x3000

/-- Models Rust `str::trim_start`. -/
def trimStart (s : List Char) : List Char := s.dropWhile isRustWhitespace

/-- Models Rust `str::trim_end`. -/
def trimEnd (s : List Char) : List Char := (s.reverse.dropWhile isRustWhitespace).reverse

/-- Models Rust `str::trim` (trim both ends). -/
def rustTrim (s : List Char) : List Char := trimStart (trimEnd s)

/-- Models Rust `s.strip_prefix(marker).unwrap_or(s)` as used in
`src/gemini.rs` lines 142–152. -/
def stripMarker (marker : List Char) (s : List Char) : List Char :=
  if marker.isPrefixOf s then s.drop marker.length else s

/-- Recursion core of `splitOnSep`, structurally recursive on a fuel
argument so that the kernel can evaluate it; `splitOnSep` supplies
fuel equal to the input length, which never runs out. -/
def splitGo (sep : List Char) : Nat → List Char → List (List Char)
  | 0, _ => [[]]
  | fuel + 1, s =>
    match s with
    | [] => [[]]
    | c :: rest =>
      if sep.isPrefixOf (c :: rest) then
        [] :: splitGo sep fuel (rest.drop (sep.length - 1))
      else
        match splitGo sep fuel rest with
        | [] => [[c]]
        | p :: ps => (c :: p) :: ps

/-- Models Rust `str::split` with a non-empty literal pattern `sep`
(leftmost, non-overlapping matches; `k` matches yield `k + 1` parts;
the empty string yields one empty part), as used in `src/gemini.rs`
line 123. -/
def splitOnSep (sep : List Char) (s : List Char) : List (List Char) :=
  splitGo sep s.length s

/-- Constant `PROBLEM_MARKER` from `src/gemini.rs` line 9. -/
def PROBLEM_MARKER : List Char := ("**Problem:**").toList

/-- Constant `SOLUTION_MARKER` from `src/gemini.rs` line 10. -/
def SOLUTION_MARKER : List Char := ("**Solution:**").toList

/-- Constant `SEPARATOR_MARKER` from `src/gemini.rs` line 11. -/
def SEPARATOR_MARKER : List Char := ("---SOLUTION_SEPARATOR---").toList

/-- Structure `FermiEstimation` from `src/gemini.rs` lines 57–61. -/
structure FermiEstimation where
  problem : List Char
  solution : List Char
deriving DecidableEq

/-- Enum `AppError` from `src/error.rs`; payloads of every variant are modelled
as their display strings. The Rust `Io` variant is named `IoErr` here. -/
inductive AppError where
  | Config (msg : String)
  | Reqwest (msg : String)
  | Serde (msg : String)
  | GeminiApi (msg : String)
  | Ntfy (msg : String)
  | IoErr (msg : String)
  | ParseError (msg : String)
  | Internal (msg : String)
deriving DecidableEq

/-- The two-part branch of the parsing tail of
`generate_fermi_problem_and_solution` (`src/gemini.rs` lines 132–166):
trim both parts, check markers, strip markers, trim again, require both
results non-empty. -/
def parseTwoParts (p0 p1 : List Char) : Except AppError FermiEstimation :=
  let problem_part := rustTrim p0
  let solution_part := rustTrim p1
  if PROBLEM_MARKER.isPrefixOf problem_part && SOLUTION_MARKER.isPrefixOf solution_part then
    let clean_problem := rustTrim (stripMarker PROBLEM_MARKER problem_part)
    let clean_solution := rustTrim (stripMarker SOLUTION_MARKER solution_part)
    if clean_problem.isEmpty || clean_solution.isEmpty then
      Except.error (AppError.ParseError ("Parsed problem or solution empty."))
    else
      Except.ok { problem := clean_problem, solution := clean_solution }
  else
    Except.error (AppError.ParseError ("Missing expected marker(s)"))

/-- Models the parsing tail of `generate_fermi_problem_and_solution`
(`src/gemini.rs` lines 123–166): split on the separator, require exactly
two parts, then `parseTwoParts`. -/
def parseGeneratedText (generated_text : List Char) : Except AppError FermiEstimation :=
  match splitOnSep SEPARATOR_MARKER generated_text with
  | [p0, p1] => parseTwoParts p0 p1
  | parts =>
    Except.error (AppError.ParseError ("Expected 2 parts, found " ++ toString parts.length))

/-- Helper for `linesFirst`: Rust `str::lines` strips one trailing `'\r'`
from a line that was terminated by `'\n'`. -/
def dropTrailCR (l : List Char) : List Char :=
  if l.getLast? = some '\r' then l.dropLast else l

/-- Models Rust `message_body.lines().next()` (`src/ntfy.rs` lines 16–18):
`none` on the empty string; otherwise the text before the first `'\n'`,
with one trailing `'\r'` removed when a `'\n'` was present. -/
def linesFirst (s : List Char) : Option (List Char) :=
  match s with
  | [] => none
  | _ :: _ =>
    let upto := s.takeWhile (fun c => c ≠ '\n')
    if upto.length < s.length then some (dropTrailCR upto) else some upto

/-- The outbound ntfy.sh request built by `send_notification`
(`src/ntfy.rs` lines 27–47): `Title` header, `Tags` header, optional
`X-Delay` header, and the raw message body. -/
structure NtfyRequest where
  title : List Char
  tags : String
  xDelay : Option (List Char)
  body : List Char
deriving DecidableEq

/-- Models the request-building part of `send_notification`
(`src/ntfy.rs` lines 14–47): first line of the body (default
`"Fermi Notification"` when absent), trimmed, prefixed, truncated to 100
characters with `chars().take(100)`; the delay is attached as `X-Delay`
only when non-empty and ending in `'s'`, `'m'`, `'h'` or `'d'`. -/
def send_notification_request ( title_prefix : List Char) (message_body : List Char)
    (delay : Option (List Char)) : NtfyRequest :=
  let first_line := rustTrim ((linesFirst message_body).getD (("Fermi Notification").toList))
  let title := title_prefix ++ first_line
  let truncated_title := title.take 100
  let xd : Option (List Char) :=
    match delay with
    | some d =>
      if d.isEmpty then none
      else if d.getLast? = some 's' ∨ d.getLast? = some 'm' ∨
              d.getLast? = some 'h' ∨ d.getLast? = some 'd' then some d
      else none
    | none => none
  { title := truncated_title, tags := "brain,puzzle", xDelay := xd, body := message_body }

/-- An HTTP response as produced by the `ResponseError` impl in
`src/main.rs`: a status code and the fixed JSON category string. -/
structure HttpResponse where
  status : Nat
  body : String
deriving DecidableEq

/-- Models `ResponseError::error_response` for `AppError`
(`src/main.rs` lines 15–33). -/
def errorResponse : AppError → HttpResponse
  | .Config _ => { status := 500, body := "Configuration Error" }
  | .Reqwest _ => { status := 502, body := "Upstream Service Error" }
  | .Serde _ => { status := 500, body := "Data Processing Error" }
  | .GeminiApi _ => { status := 502, body := "Gemini API Error" }
  | .Ntfy _ => { status := 502, body := "Notification Service Error" }
  | .IoErr _ => { status := 500, body := "IO Error" }
  | .ParseError _ => { status := 500, body := "Content Parsing Error" }
  | .Internal _ => { status := 500, body := "Internal Server Error" }

/-- Constant `SOLUTION_DELAY` from `src/main.rs` line 40. -/
def SOLUTION_DELAY : List Char := ("10m").toList

/-- One call to `ntfy::send_notification` as issued by the handler:
title prefix, message body, optional delay token. -/
structure NtfyCall where
  title_prefix : List Char
  message_body : List Char
  delay : Option (List Char)
deriving DecidableEq

/-- The immediate problem notification call (`src/main.rs` lines 55–66). -/
def problemCall (est : FermiEstimation) : NtfyCall :=
  { title_prefix := ("Problem: ").toList, message_body := est.problem, delay := none }

/-- The delayed solution notification call (`src/main.rs` lines 73–84). -/
def solutionCall (est : FermiEstimation) : NtfyCall :=
  { title_prefix := ("Solution: ").toList, message_body := est.solution,
    delay := some SOLUTION_DELAY }

/-- Models `handle_fermi_request` (`src/main.rs` lines 43–93) with the two
upstream effects abstracted as oracles: `genResult` is the outcome of
`generate_fermi_problem_and_solution`, `notify` the outcome of each
`send_notification` call. The `?` operator is explicit `match`/early
return; the second component records the notification calls attempted,
in order. -/
def handle_fermi_request (genResult : Except AppError FermiEstimation)
    (notify : NtfyCall → Except AppError Unit) :
    Except AppError String × List NtfyCall :=
  match genResult with
  | .error e => (.error e, [])
  | .ok est =>
    match notify (problemCall est) with
    | .error e => (.error e, [problemCall est])
    | .ok _ =>
      match notify (solutionCall est) with
      | .error e => (.error e, [problemCall est, solutionCall est])
      | .ok _ =>
        (.ok ("Fermi problem sent, solution scheduled for 10m delay."),
          [problemCall est, solutionCall est])

/-- The duration grammar as worded by the specification: a non-empty run
of digits followed by one of the four unit suffixes. (Spec-side
definition, used to compare the spec's delay-validation claim with the
code's actual check.) -/
def delayGrammar (d : List Char) : Prop :=
  ∃ ds c, d = ds ++ [c] ∧ ds ≠ [] ∧ (∀ x ∈ ds, x.isDigit) ∧
    (c = 's' ∨ c = 'm' ∨ c = 'h' ∨ c = 'd')

/-- The raw-text template of the parser round-trip claim:
`**Problem:** P ---SOLUTION_SEPARATOR--- **Solution:** S`. -/
def c2Template (P S : List Char) : List Char :=
  PROBLEM_MARKER ++ [' '] ++ P ++ [' '] ++ SEPARATOR_MARKER ++ [' '] ++
    SOLUTION_MARKER ++ [' '] ++ S

/-! ## Supporting lemmas -/

theorem splitGo_nil (sep : List Char) (n : Nat) : splitGo sep n [] = [[]] := by
  cases n <;> rfl

theorem splitGo_congr (sep : List Char) :
    ∀ n m s, s.length ≤ n → s.length ≤ m → splitGo sep n s = splitGo sep m s := by
  intro n
  induction n with
  | zero =>
    intro m s hn _
    have hs : s = [] := List.length_eq_zero.mp (Nat.le_zero.mp hn)
    subst hs
    rw [splitGo_nil, splitGo_nil]
  | succ n ih =>
    intro m s hn hm
    cases s with
    | nil => rw [splitGo_nil, splitGo_nil]
    | cons c rest =>
      cases m with
      | zero => simp at hm
      | succ m =>
        simp only [List.length_cons, Nat.succ_le_succ_iff] at hn hm
        show splitGo sep (n + 1) (c :: rest) = splitGo sep (m + 1) (c :: rest)
        simp only [splitGo]
        have hd : (rest.drop (sep.length - 1)).length ≤ rest.length := by
          simp only [List.length_drop]
          omega
        by_cases h : sep.isPrefixOf (c :: rest)
        · rw [if_pos h, if_pos h, ih m _ (le_trans hd hn) (le_trans hd hm)]
        · rw [if_neg h, if_neg h, ih m rest hn hm]

theorem splitOnSep_nil (sep : List Char) : splitOnSep sep [] = [[]] := rfl

theorem splitOnSep_cons (sep : List Char) (c : Char) (rest : List Char) :
    splitOnSep sep (c :: rest) =
      if sep.isPrefixOf (c :: rest) then
        [] :: splitOnSep sep (rest.drop (sep.length - 1))
      else
        match splitOnSep sep rest with
        | [] => [[c]]
        | p :: ps => (c :: p) :: ps := by
  show splitGo sep (rest.length + 1) (c :: rest) = _
  simp only [splitGo]
  have hd : (rest.drop (sep.length - 1)).length ≤ rest.length := by
    simp only [List.length_drop]
    omega
  by_cases h : sep.isPrefixOf (c :: rest)
  · rw [if_pos h, if_pos h]
    unfold splitOnSep
    rw [splitGo_congr sep rest.length _ _ hd le_rfl]
  · rw [if_neg h, if_neg h]
    rfl

theorem isPrefixOf_eq_true {l₁ l₂ : List Char} : l₁.isPrefixOf l₂ = true ↔ l₁ <+: l₂ :=
  List.isPrefixOf_iff_prefix

theorem prefix_through_space {sep X Y : List Char} (hsp : ' ' ∉ sep)
    (h : sep <+: X ++ ' ' :: Y) : sep <+: X := by
  induction X generalizing sep with
  | nil =>
    cases sep with
    | nil => exact List.nil_prefix
    | cons a s' =>
      rw [List.nil_append] at h
      rcases List.cons_prefix_cons.mp h with ⟨rfl, -⟩
      exact absurd (List.mem_cons_self _ _) hsp
  | cons x X ih =>
    cases sep with
    | nil => exact List.nil_prefix
    | cons a s' =>
      rw [List.cons_append] at h
      rcases List.cons_prefix_cons.mp h with ⟨rfl, h'⟩
      have hsp' : ' ' ∉ s' := fun hm => hsp (List.mem_cons_of_mem _ hm)
      exact List.cons_prefix_cons.mpr ⟨rfl, ih hsp' h'⟩

theorem infix_through_space {sep X Y : List Char} (hsp : ' ' ∉ sep)
    (h : sep <:+: X ++ ' ' :: Y) : sep <:+: X ∨ sep <:+: Y := by
  induction X with
  | nil =>
    rw [List.nil_append] at h
    rcases List.infix_cons_iff.mp h with hpre | hinf
    · cases sep with
      | nil => exact Or.inl List.nil_infix
      | cons a s' =>
        rcases List.cons_prefix_cons.mp hpre with ⟨rfl, -⟩
        exact absurd (List.mem_cons_self _ _) hsp
    · exact Or.inr hinf
  | cons x X ih =>
    rw [List.cons_append] at h
    rcases List.infix_cons_iff.mp h with hpre | hinf
    · have : sep <+: x :: X := prefix_through_space hsp (by rwa [List.cons_append])
      exact Or.inl this.isInfix
    · rcases ih hinf with hX | hY
      · exact Or.inl (List.infix_cons hX)
      · exact Or.inr hY

theorem splitOnSep_eq_single {sep s : List Char} (h : ¬ sep <:+: s) :
    splitOnSep sep s = [s] := by
  induction s with
  | nil =>
    exact splitOnSep_nil sep
  | cons c rest ih =>
    rw [splitOnSep_cons]
    have hp : ¬ (sep.isPrefixOf (c :: rest) = true) := fun hb =>
      h (isPrefixOf_eq_true.mp hb).isInfix
    rw [if_neg hp, ih (fun hi => h (List.infix_cons hi))]

theorem splitOnSep_sep_append {sep Z : List Char} (hne : sep ≠ []) :
    splitOnSep sep (sep ++ Z) = [] :: splitOnSep sep Z := by
  cases sep with
  | nil => exact absurd rfl hne
  | cons a s' =>
    rw [List.cons_append, splitOnSep_cons]
    have hp : (a :: s').isPrefixOf (a :: (s' ++ Z)) = true := by
      rw [isPrefixOf_eq_true]
      exact (List.prefix_append (a :: s') Z).trans (by rw [List.cons_append])
    rw [if_pos hp]
    congr 2
    show (s' ++ Z).drop ((s'.length + 1) - 1) = Z
    simp only [Nat.add_sub_cancel]
    exact List.drop_left s' Z

theorem splitOnSep_append_sep {sep A Z : List Char} (hne : sep ≠ []) (hsp : ' ' ∉ sep)
    (hA : ¬ sep <:+: A) :
    splitOnSep sep (A ++ ' ' :: (sep ++ Z)) = (A ++ [' ']) :: splitOnSep sep Z := by
  induction A with
  | nil =>
    rw [List.nil_append, splitOnSep_cons]
    have hp : ¬ (sep.isPrefixOf (' ' :: (sep ++ Z)) = true) := by
      intro hb
      have hpre := isPrefixOf_eq_true.mp hb
      cases sep with
      | nil => exact hne rfl
      | cons a s' =>
        rcases List.cons_prefix_cons.mp hpre with ⟨rfl, -⟩
        exact hsp (List.mem_cons_self _ _)
    rw [if_neg hp, splitOnSep_sep_append hne]
    rfl
  | cons x A ih =>
    rw [List.cons_append, splitOnSep_cons]
    have hp : ¬ (sep.isPrefixOf (x :: (A ++ ' ' :: (sep ++ Z))) = true) := by
      intro hb
      have hpre := isPrefixOf_eq_true.mp hb
      have : sep <+: (x :: A) ++ ' ' :: (sep ++ Z) := by rwa [List.cons_append]
      exact hA (prefix_through_space hsp this).isInfix
    rw [if_neg hp, ih (fun hi => hA (List.infix_cons hi))]
    rfl

theorem splitOnSep_headPre_aux (sep : List Char) :
    ∀ (n : Nat) (s : List Char), s.length ≤ n →
      ∀ p ps, splitOnSep sep s = p :: ps → p <+: s := by
  intro n
  induction n with
  | zero =>
    intro s hs p ps hsplit
    have : s = [] := List.length_eq_zero.mp (Nat.le_zero.mp hs)
    subst this
    rw [splitOnSep_nil] at hsplit
    injection hsplit with h1 _
    subst h1
    exact List.nil_prefix
  | succ n ih =>
    intro s hs p ps hsplit
    cases s with
    | nil =>
      rw [splitOnSep_nil] at hsplit
      injection hsplit with h1 _
      subst h1
      exact List.nil_prefix
    | cons c rest =>
      simp only [List.length_cons, Nat.succ_le_succ_iff] at hs
      rw [splitOnSep_cons] at hsplit
      by_cases hpre : sep.isPrefixOf (c :: rest) = true
      · rw [if_pos hpre] at hsplit
        injection hsplit with h1 _
        subst h1
        exact List.nil_prefix
      · rw [if_neg hpre] at hsplit
        cases hsr : splitOnSep sep rest with
        | nil =>
          rw [hsr] at hsplit
          injection hsplit with h1 _
          subst h1
          exact List.cons_prefix_cons.mpr ⟨rfl, List.nil_prefix⟩
        | cons q qs =>
          rw [hsr] at hsplit
          injection hsplit with h1 _
          subst h1
          exact List.cons_prefix_cons.mpr ⟨rfl, ih rest hs q qs hsr⟩

theorem splitOnSep_headPre {sep s p : List Char} {ps : List (List Char)}
    (h : splitOnSep sep s = p :: ps) : p <+: s :=
  splitOnSep_headPre_aux sep s.length s le_rfl p ps h

theorem splitOnSep_parts_sep_free_aux (sep : List Char) (hne : sep ≠ []) :
    ∀ (n : Nat) (s : List Char), s.length ≤ n →
      ∀ part ∈ splitOnSep sep s, ¬ sep <:+: part := by
  intro n
  induction n with
  | zero =>
    intro s hs part hmem hinf
    have hs0 : s = [] := List.length_eq_zero.mp (Nat.le_zero.mp hs)
    subst hs0
    rw [splitOnSep_nil] at hmem
    rcases List.mem_singleton.mp hmem with rfl
    have := hinf.length_le
    have : sep = [] := List.length_eq_zero.mp (Nat.le_zero.mp this)
    exact hne this
  | succ n ih =>
    intro s hs part hmem hinf
    cases s with
    | nil =>
      rw [splitOnSep_nil] at hmem
      rcases List.mem_singleton.mp hmem with rfl
      have := hinf.length_le
      exact hne (List.length_eq_zero.mp (Nat.le_zero.mp this))
    | cons c rest =>
      simp only [List.length_cons, Nat.succ_le_succ_iff] at hs
      rw [splitOnSep_cons] at hmem
      by_cases hpre : sep.isPrefixOf (c :: rest) = true
      · rw [if_pos hpre] at hmem
        rcases List.mem_cons.mp hmem with rfl | hmem'
        · have := hinf.length_le
          exact hne (List.length_eq_zero.mp (Nat.le_zero.mp this))
        · have hd : (rest.drop (sep.length - 1)).length ≤ n := by
            have : (rest.drop (sep.length - 1)).length ≤ rest.length := by
              simp only [List.length_drop]
              omega
            omega
          exact ih _ hd part hmem' hinf
      · rw [if_neg hpre] at hmem
        cases hsr : splitOnSep sep rest with
        | nil =>
          rw [hsr] at hmem
          rcases List.mem_singleton.mp hmem with rfl
          rcases List.infix_cons_iff.mp hinf with hp | hinf'
          · exact hpre (isPrefixOf_eq_true.mpr
              (hp.trans (List.cons_prefix_cons.mpr ⟨rfl, List.nil_prefix⟩)))
          · have := hinf'.length_le
            exact hne (List.length_eq_zero.mp (Nat.le_zero.mp this))
        | cons q qs =>
          rw [hsr] at hmem
          rcases List.mem_cons.mp hmem with rfl | hmem'
          · rcases List.infix_cons_iff.mp hinf with hp | hinf'
            · have hq : q <+: rest := splitOnSep_headPre hsr
              exact hpre (isPrefixOf_eq_true.mpr
                (hp.trans (List.cons_prefix_cons.mpr ⟨rfl, hq⟩)))
            · exact ih rest hs q (by rw [hsr]; exact List.mem_cons_self _ _) hinf'
          · exact ih rest hs part (by rw [hsr]; exact List.mem_cons_of_mem _ hmem') hinf

theorem splitOnSep_parts_sep_free {sep s part : List Char} (hne : sep ≠ [])
    (hmem : part ∈ splitOnSep sep s) : ¬ sep <:+: part :=
  splitOnSep_parts_sep_free_aux sep hne s.length s le_rfl part hmem

theorem dropWhile_head_false {α : Type} {p : α → Bool} {l : List α} {c : α} {t : List α}
    (h : l.dropWhile p = c :: t) : p c = false := by
  have := List.head?_dropWhile_not p l
  rw [h] at this
  simpa using this

theorem trimStart_cons_of_ws {c : Char} {l : List Char} (h : isRustWhitespace c = true) :
    trimStart (c :: l) = trimStart l := by
  simp [trimStart, List.dropWhile_cons, h]

theorem trimStart_cons_of_not_ws {c : Char} {l : List Char} (h : isRustWhitespace c = false) :
    trimStart (c :: l) = c :: l := by
  simp [trimStart, List.dropWhile_cons, h]

theorem trimStart_head?_not_ws {l : List Char} {c : Char}
    (h : (trimStart l).head? = some c) : isRustWhitespace c = false := by
  unfold trimStart at h
  cases hd : l.dropWhile isRustWhitespace with
  | nil => rw [hd] at h; simp at h
  | cons a t =>
    rw [hd] at h
    simp only [List.head?_cons, Option.some.injEq] at h
    subst h
    exact dropWhile_head_false hd

theorem trimEnd_append_ws {l : List Char} {c : Char} (h : isRustWhitespace c = true) :
    trimEnd (l ++ [c]) = trimEnd l := by
  simp [trimEnd, List.reverse_append, List.dropWhile_cons, h]

theorem trimEnd_ne_nil_iff_exists {Y : List Char} :
    trimEnd Y ≠ [] ↔ (Y.reverse.dropWhile isRustWhitespace) ≠ [] := by
  unfold trimEnd
  constructor
  · intro h hc
    exact h (by rw [hc]; rfl)
  · intro h hc
    exact h (by simpa using congrArg List.reverse hc)

theorem trimEnd_append_of_ne_nil {X Y : List Char} (h : trimEnd Y ≠ []) :
    trimEnd (X ++ Y) = X ++ trimEnd Y := by
  unfold trimEnd
  rw [List.reverse_append, List.dropWhile_append]
  have hne : (Y.reverse.dropWhile isRustWhitespace).isEmpty = false := by
    cases hd : Y.reverse.dropWhile isRustWhitespace with
    | nil => exact absurd hd (trimEnd_ne_nil_iff_exists.mp h)
    | cons a t => rfl
  rw [hne]
  simp [List.reverse_append]

theorem trimEnd_getLast?_not_ws {l : List Char} {c : Char}
    (h : (trimEnd l).getLast? = some c) : isRustWhitespace c = false := by
  rw [List.getLast?_eq_head?_reverse] at h
  unfold trimEnd at h
  rw [List.reverse_reverse] at h
  cases hd : l.reverse.dropWhile isRustWhitespace with
  | nil => rw [hd] at h; simp at h
  | cons a t =>
    rw [hd] at h
    simp only [List.head?_cons, Option.some.injEq] at h
    subst h
    exact dropWhile_head_false hd

theorem trimEnd_eq_self_of_getLast {l : List Char} {c : Char}
    (hl : l.getLast? = some c) (h : isRustWhitespace c = false) : trimEnd l = l := by
  rw [List.getLast?_eq_head?_reverse] at hl
  cases hr : l.reverse with
  | nil => rw [hr] at hl; simp at hl
  | cons a t =>
    rw [hr] at hl
    simp only [List.head?_cons, Option.some.injEq] at hl
    subst hl
    unfold trimEnd
    rw [hr, List.dropWhile_cons_of_neg (by simp [h]), ← hr, List.reverse_reverse]

theorem trimEnd_prefix_self (l : List Char) : trimEnd l <+: l := by
  unfold trimEnd
  have := List.dropWhile_suffix (l := l.reverse) isRustWhitespace
  rw [← List.reverse_prefix] at this
  simpa using this

theorem rustTrim_infix_self (l : List Char) : rustTrim l <:+: l := by
  unfold rustTrim trimStart
  exact (List.dropWhile_suffix _).isInfix.trans (trimEnd_prefix_self l).isInfix

theorem rustTrim_append_ws {l : List Char} {c : Char} (h : isRustWhitespace c = true) :
    rustTrim (l ++ [c]) = rustTrim l := by
  unfold rustTrim
  rw [trimEnd_append_ws h]

theorem rustTrim_ne_nil_trimEnd {l : List Char} (h : rustTrim l ≠ []) : trimEnd l ≠ [] := by
  intro hc
  unfold rustTrim at h
  rw [hc] at h
  exact h rfl

theorem rustTrim_head?_not_ws {l : List Char} {c : Char}
    (h : (rustTrim l).head? = some c) : isRustWhitespace c = false :=
  trimStart_head?_not_ws h

theorem getLast?_of_suffix {l₁ l₂ : List Char} (h : l₁ <:+ l₂) (hne : l₁ ≠ []) :
    l₂.getLast? = l₁.getLast? := by
  obtain ⟨t, rfl⟩ := h
  rw [List.getLast?_append]
  cases hl : l₁.getLast? with
  | none => exact absurd (by simpa using hl) hne
  | some c => rfl

theorem rustTrim_getLast?_not_ws {l : List Char} {c : Char}
    (h : (rustTrim l).getLast? = some c) : isRustWhitespace c = false := by
  have hne : rustTrim l ≠ [] := by
    intro hc
    rw [hc] at h
    simp at h
  have hsuf : rustTrim l <:+ trimEnd l := List.dropWhile_suffix _
  have := getLast?_of_suffix hsuf hne
  exact trimEnd_getLast?_not_ws (by rw [this]; exact h)

theorem rustTrim_space_trimEnd {P : List Char} (h : trimEnd P ≠ []) :
    rustTrim (' ' :: trimEnd P) = rustTrim P := by
  obtain ⟨c, hc⟩ : ∃ c, (trimEnd P).getLast? = some c := by
    cases hg : (trimEnd P).getLast? with
    | none => exact absurd (by simpa using hg) h
    | some c => exact ⟨c, rfl⟩
  have hcw : isRustWhitespace c = false := trimEnd_getLast?_not_ws hc
  have hlast : (' ' :: trimEnd P).getLast? = some c := by
    rw [show ' ' :: trimEnd P = [' '] ++ trimEnd P from rfl, List.getLast?_append, hc]
    rfl
  unfold rustTrim
  rw [trimEnd_eq_self_of_getLast hlast hcw, trimStart_cons_of_ws (by decide)]

theorem trim_marker_segment {M P : List Char} {t : List Char} (hM : M = '*' :: t)
    (hP : trimEnd P ≠ []) :
    rustTrim (M ++ ' ' :: P) = M ++ ' ' :: trimEnd P := by
  unfold rustTrim
  rw [show M ++ ' ' :: P = (M ++ [' ']) ++ P by simp]
  rw [trimEnd_append_of_ne_nil hP]
  subst hM
  rw [List.cons_append, List.cons_append, trimStart_cons_of_not_ws (by decide)]
  simp

theorem rustTrim_cons_ws {W : List Char} {c : Char} (h : isRustWhitespace c = true) :
    rustTrim (c :: W) = rustTrim W := by
  by_cases hW : trimEnd W = []
  · have hdw : W.reverse.dropWhile isRustWhitespace = [] := by
      by_contra hc
      exact (trimEnd_ne_nil_iff_exists.mpr hc) hW
    have h1 : trimEnd (c :: W) = [] := by
      unfold trimEnd
      rw [show (c :: W).reverse = W.reverse ++ [c] by simp, List.dropWhile_append, hdw]
      simp [List.dropWhile_cons, h]
    unfold rustTrim
    rw [h1, hW]
  · have h1 : trimEnd (c :: W) = c :: trimEnd W := by
      rw [show c :: W = [c] ++ W from rfl, trimEnd_append_of_ne_nil hW]
      rfl
    unfold rustTrim
    rw [h1, trimStart_cons_of_ws h]

theorem stripMarker_suffix (m l : List Char) : stripMarker m l <:+ l := by
  unfold stripMarker
  by_cases h : m.isPrefixOf l = true
  · rw [if_pos h]
    exact List.drop_suffix _ _
  · rw [if_neg h]

theorem parse_eq_two {raw p0 p1 : List Char}
    (hs : splitOnSep SEPARATOR_MARKER raw = [p0, p1]) :
    parseGeneratedText raw = parseTwoParts p0 p1 := by
  unfold parseGeneratedText
  rw [hs]

theorem parse_ok_inversion {raw : List Char} {est : FermiEstimation}
    (h : parseGeneratedText raw = Except.ok est) :
    ∃ p0 p1, splitOnSep SEPARATOR_MARKER raw = [p0, p1] ∧
      (PROBLEM_MARKER.isPrefixOf (rustTrim p0) &&
        SOLUTION_MARKER.isPrefixOf (rustTrim p1)) = true ∧
      est.problem = rustTrim (stripMarker PROBLEM_MARKER (rustTrim p0)) ∧
      est.solution = rustTrim (stripMarker SOLUTION_MARKER (rustTrim p1)) ∧
      est.problem ≠ [] ∧ est.solution ≠ [] := by
  rcases hs : splitOnSep SEPARATOR_MARKER raw with _ | ⟨p0, _ | ⟨p1, _ | ⟨p2, ps⟩⟩⟩
  · unfold parseGeneratedText at h
    rw [hs] at h
    simp at h
  · unfold parseGeneratedText at h
    rw [hs] at h
    simp at h
  · rw [parse_eq_two hs] at h
    simp only [parseTwoParts] at h
    by_cases h1 : (PROBLEM_MARKER.isPrefixOf (rustTrim p0) &&
        SOLUTION_MARKER.isPrefixOf (rustTrim p1)) = true
    · rw [if_pos h1] at h
      by_cases h2 : ((rustTrim (stripMarker PROBLEM_MARKER (rustTrim p0))).isEmpty ||
          (rustTrim (stripMarker SOLUTION_MARKER (rustTrim p1))).isEmpty) = true
      · rw [if_pos h2] at h
        simp at h
      · rw [if_neg h2] at h
        simp only [Except.ok.injEq] at h
        subst h
        simp only [Bool.or_eq_true, List.isEmpty_iff, not_or] at h2
        exact ⟨p0, p1, rfl, h1, rfl, rfl, h2.1, h2.2⟩
    · rw [if_neg h1] at h
      simp at h
  · unfold parseGeneratedText at h
    rw [hs] at h
    simp at h

/-! ## Claim theorems -/

/-- C2 (amended): for strings `P`, `S` that are non-empty after trimming and
contain no occurrence of the separator token, parsing the raw text
`**Problem:** P ---SOLUTION_SEPARATOR--- **Solution:** S` succeeds and yields
exactly `{problem := trim P, solution := trim S}`; in particular, when `P`
and `S` carry no leading or trailing whitespace the content round-trips
exactly. -/
theorem c2_parser_roundtrip (P S : List Char)
    (hP : rustTrim P ≠ []) (hS : rustTrim S ≠ [])
    (hPsep : ¬ SEPARATOR_MARKER <:+: P) (hSsep : ¬ SEPARATOR_MARKER <:+: S) :
    parseGeneratedText (c2Template P S) =
      Except.ok { problem := rustTrim P, solution := rustTrim S } := by
  have hPe : trimEnd P ≠ [] := rustTrim_ne_nil_trimEnd hP
  have hSe : trimEnd S ≠ [] := rustTrim_ne_nil_trimEnd hS
  have hsep_ne : SEPARATOR_MARKER ≠ [] := by decide
  have hsp : ' ' ∉ SEPARATOR_MARKER := by decide
  have hA : ¬ SEPARATOR_MARKER <:+: (PROBLEM_MARKER ++ ' ' :: P) := by
    intro hinf
    rcases infix_through_space hsp hinf with hM | hP'
    · have := hM.length_le
      revert this
      decide
    · exact hPsep hP'
  have hB : ¬ SEPARATOR_MARKER <:+: (' ' :: (SOLUTION_MARKER ++ ' ' :: S)) := by
    intro hinf
    have hinf' : SEPARATOR_MARKER <:+: [] ++ ' ' :: (SOLUTION_MARKER ++ ' ' :: S) := by
      rwa [List.nil_append]
    rcases infix_through_space hsp hinf' with h0 | h1
    · have := h0.length_le
      revert this
      decide
    · rcases infix_through_space hsp h1 with hM | hS'
      · have := hM.length_le
        revert this
        decide
      · exact hSsep hS'
  have htempl : c2Template P S =
      (PROBLEM_MARKER ++ ' ' :: P) ++
        ' ' :: (SEPARATOR_MARKER ++ (' ' :: (SOLUTION_MARKER ++ ' ' :: S))) := by
    unfold c2Template
    simp
  have hsplit : splitOnSep SEPARATOR_MARKER (c2Template P S) =
      [(PROBLEM_MARKER ++ ' ' :: P) ++ [' '], ' ' :: (SOLUTION_MARKER ++ ' ' :: S)] := by
    rw [htempl, splitOnSep_append_sep hsep_ne hsp hA, splitOnSep_eq_single hB]
  rw [parse_eq_two hsplit]
  have hMP : PROBLEM_MARKER = '*' :: ("*Problem:**").toList := by decide
  have hMS : SOLUTION_MARKER = '*' :: ("*Solution:**").toList := by decide
  have htrim0 : rustTrim ((PROBLEM_MARKER ++ ' ' :: P) ++ [' ']) =
      PROBLEM_MARKER ++ ' ' :: trimEnd P := by
    rw [rustTrim_append_ws (by decide), trim_marker_segment hMP hPe]
  have htrim1 : rustTrim (' ' :: (SOLUTION_MARKER ++ ' ' :: S)) =
      SOLUTION_MARKER ++ ' ' :: trimEnd S := by
    rw [rustTrim_cons_ws (by decide), trim_marker_segment hMS hSe]
  have hpre0 : PROBLEM_MARKER.isPrefixOf (PROBLEM_MARKER ++ ' ' :: trimEnd P) = true :=
    isPrefixOf_eq_true.mpr (List.prefix_append _ _)
  have hpre1 : SOLUTION_MARKER.isPrefixOf (SOLUTION_MARKER ++ ' ' :: trimEnd S) = true :=
    isPrefixOf_eq_true.mpr (List.prefix_append _ _)
  have hstrip0 : stripMarker PROBLEM_MARKER (PROBLEM_MARKER ++ ' ' :: trimEnd P) =
      ' ' :: trimEnd P := by
    unfold stripMarker
    rw [if_pos hpre0]
    exact List.drop_left _ _
  have hstrip1 : stripMarker SOLUTION_MARKER (SOLUTION_MARKER ++ ' ' :: trimEnd S) =
      ' ' :: trimEnd S := by
    unfold stripMarker
    rw [if_pos hpre1]
    exact List.drop_left _ _
  simp only [parseTwoParts]
  rw [htrim0, htrim1, hstrip0, hstrip1, rustTrim_space_trimEnd hPe, rustTrim_space_trimEnd hSe,
    if_pos (by rw [hpre0, hpre1]; rfl)]
  rw [if_neg]
  intro hc
  rcases Bool.or_eq_true_iff.mp hc with hc0 | hc1
  · exact hP (List.isEmpty_iff.mp hc0)
  · exact hS (List.isEmpty_iff.mp hc1)

/-- Witness for C2: concrete trimmed inputs round-trip exactly. -/
theorem c2_parser_roundtrip_witness :
    parseGeneratedText (c2Template ("x").toList ("y").toList) =
      Except.ok { problem := ("x").toList, solution := ("y").toList } :=
  c2_parser_roundtrip ("x").toList ("y").toList (by decide) (by decide) (by decide) (by decide)

/-- Counterexample to C2 as stated: `P = "x "` is non-empty after trimming,
yet the parsed problem is `"x"`, not `P` itself — the parser trims, so the
content does not round-trip exactly for untrimmed `P`. -/
theorem c2_parser_roundtrip_counterexample :
    parseGeneratedText (c2Template ("x ").toList ("y").toList) ≠
      Except.ok { problem := ("x ").toList, solution := ("y").toList } := by
  intro h
  have heval : parseGeneratedText (c2Template ("x ").toList ("y").toList) =
      Except.ok { problem := ("x").toList, solution := ("y").toList } := by rfl
  rw [heval] at h
  injection h with h'
  exact absurd h' (by decide)

/-- C6: whenever splitting the raw text on the separator token does not
yield exactly two segments, parsing fails with a `ParseError` stating the
number of parts found, and no estimation is produced. -/
theorem c6_part_count_error (raw : List Char)
    (hlen : (splitOnSep SEPARATOR_MARKER raw).length ≠ 2) :
    parseGeneratedText raw =
      Except.error (AppError.ParseError
        ("Expected 2 parts, found " ++ toString (splitOnSep SEPARATOR_MARKER raw).length)) ∧
    ∀ est, parseGeneratedText raw ≠ Except.ok est := by
  have hmain : parseGeneratedText raw =
      Except.error (AppError.ParseError
        ("Expected 2 parts, found " ++ toString (splitOnSep SEPARATOR_MARKER raw).length)) := by
    rcases hs : splitOnSep SEPARATOR_MARKER raw with _ | ⟨p0, _ | ⟨p1, _ | ⟨p2, ps⟩⟩⟩
    · unfold parseGeneratedText
      rw [hs]
    · unfold parseGeneratedText
      rw [hs]
    · exfalso
      apply hlen
      rw [hs]
      rfl
    · unfold parseGeneratedText
      rw [hs]
  refine ⟨hmain, fun est hok => ?_⟩
  rw [hmain] at hok
  simp at hok

/-- Witness for C6: a text with no separator yields one part and the
part-count parse error. -/
theorem c6_part_count_error_witness :
    parseGeneratedText (("no separator here").toList) =
      Except.error (AppError.ParseError ("Expected 2 parts, found 1")) :=
  (c6_part_count_error (("no separator here").toList) (by decide)).1

/-- C7: when the split yields exactly two segments but a trimmed segment
lacks its required marker, parsing fails with the missing-marker error. -/
theorem c7_marker_error (raw p0 p1 : List Char)
    (hs : splitOnSep SEPARATOR_MARKER raw = [p0, p1])
    (hm : (PROBLEM_MARKER.isPrefixOf (rustTrim p0) &&
      SOLUTION_MARKER.isPrefixOf (rustTrim p1)) = false) :
    parseGeneratedText raw =
      Except.error (AppError.ParseError ("Missing expected marker(s)")) := by
  rw [parse_eq_two hs]
  simp only [parseTwoParts]
  rw [hm]
  simp

/-- Witness for C7: two segments without markers produce the
missing-marker error. -/
theorem c7_marker_error_witness :
    parseGeneratedText (("foo---SOLUTION_SEPARATOR---bar").toList) =
      Except.error (AppError.ParseError ("Missing expected marker(s)")) :=
  c7_marker_error (("foo---SOLUTION_SEPARATOR---bar").toList)
    (("foo").toList) (("bar").toList) (by rfl) (by rfl)

/-- C8: on success both fields are non-empty, carry no leading or trailing
whitespace, and are exactly the marker-stripped re-trimmed segments; and a
segment that is empty after marker stripping and trimming makes parsing
fail with the empty-field error. -/
theorem c8_success_clean :
    (∀ raw est, parseGeneratedText raw = Except.ok est →
      est.problem ≠ [] ∧ est.solution ≠ [] ∧
      (∀ c, est.problem.head? = some c → isRustWhitespace c = false) ∧
      (∀ c, est.problem.getLast? = some c → isRustWhitespace c = false) ∧
      (∀ c, est.solution.head? = some c → isRustWhitespace c = false) ∧
      (∀ c, est.solution.getLast? = some c → isRustWhitespace c = false) ∧
      ∃ p0 p1, splitOnSep SEPARATOR_MARKER raw = [p0, p1] ∧
        est.problem = rustTrim (stripMarker PROBLEM_MARKER (rustTrim p0)) ∧
        est.solution = rustTrim (stripMarker SOLUTION_MARKER (rustTrim p1))) ∧
    (∀ raw p0 p1, splitOnSep SEPARATOR_MARKER raw = [p0, p1] →
      (PROBLEM_MARKER.isPrefixOf (rustTrim p0) &&
        SOLUTION_MARKER.isPrefixOf (rustTrim p1)) = true →
      (rustTrim (stripMarker PROBLEM_MARKER (rustTrim p0)) = [] ∨
        rustTrim (stripMarker SOLUTION_MARKER (rustTrim p1)) = []) →
      parseGeneratedText raw =
        Except.error (AppError.ParseError ("Parsed problem or solution empty."))) := by
  constructor
  · intro raw est h
    obtain ⟨p0, p1, hs, hmk, hp, hq, hne1, hne2⟩ := parse_ok_inversion h
    refine ⟨hne1, hne2, ?_, ?_, ?_, ?_, p0, p1, hs, hp, hq⟩
    · intro c hc
      rw [hp] at hc
      exact rustTrim_head?_not_ws hc
    · intro c hc
      rw [hp] at hc
      exact rustTrim_getLast?_not_ws hc
    · intro c hc
      rw [hq] at hc
      exact rustTrim_head?_not_ws hc
    · intro c hc
      rw [hq] at hc
      exact rustTrim_getLast?_not_ws hc
  · intro raw p0 p1 hs hmk hempty
    rw [parse_eq_two hs]
    simp only [parseTwoParts]
    have hcond : ((rustTrim (stripMarker PROBLEM_MARKER (rustTrim p0))).isEmpty ||
        (rustTrim (stripMarker SOLUTION_MARKER (rustTrim p1))).isEmpty) = true := by
      rcases hempty with he | he
      · rw [he]
        simp
      · rw [he]
        simp
    rw [if_pos hmk, if_pos hcond]

/-- Witness for C8: a successful parse has a non-empty problem field, and
a marker-only problem segment fails with the empty-field error. -/
theorem c8_success_clean_witness :
    (({ problem := ("x").toList, solution := ("y").toList } : FermiEstimation).problem ≠ []) ∧
    parseGeneratedText (("**Problem:** ---SOLUTION_SEPARATOR--- **Solution:** y").toList) =
      Except.error (AppError.ParseError ("Parsed problem or solution empty.")) :=
  ⟨(c8_success_clean.1 (c2Template ("x").toList ("y").toList)
      { problem := ("x").toList, solution := ("y").toList } (by rfl)).1,
   c8_success_clean.2 (("**Problem:** ---SOLUTION_SEPARATOR--- **Solution:** y").toList)
      (("**Problem:** ").toList) ((" **Solution:** y").toList)
      (by rfl) (by rfl) (Or.inl (by rfl))⟩

/-- C10: whenever parsing succeeds, neither returned field contains an
occurrence of the separator token. -/
theorem c10_no_separator_in_fields (raw : List Char) (est : FermiEstimation)
    (h : parseGeneratedText raw = Except.ok est) :
    ¬ SEPARATOR_MARKER <:+: est.problem ∧ ¬ SEPARATOR_MARKER <:+: est.solution := by
  obtain ⟨p0, p1, hs, -, hp, hq, -, -⟩ := parse_ok_inversion h
  have hsep_ne : SEPARATOR_MARKER ≠ [] := by decide
  constructor
  · intro hinf
    have hsub : est.problem <:+: p0 := by
      rw [hp]
      exact (rustTrim_infix_self _).trans ((stripMarker_suffix _ _).isInfix.trans (rustTrim_infix_self p0))
    exact splitOnSep_parts_sep_free hsep_ne
      (by rw [hs]; exact List.mem_cons_self _ _) (hinf.trans hsub)
  · intro hinf
    have hsub : est.solution <:+: p1 := by
      rw [hq]
      exact (rustTrim_infix_self _).trans ((stripMarker_suffix _ _).isInfix.trans (rustTrim_infix_self p1))
    exact splitOnSep_parts_sep_free hsep_ne
      (by rw [hs]; exact List.mem_cons_of_mem _ (List.mem_cons_self _ _)) (hinf.trans hsub)

/-- Witness for C10: the separator does not occur in the fields parsed from
a concrete well-formed text. -/
theorem c10_no_separator_in_fields_witness :
    ¬ SEPARATOR_MARKER <:+: (("x").toList) ∧ ¬ SEPARATOR_MARKER <:+: (("y").toList) :=
  c10_no_separator_in_fields (c2Template ("x").toList ("y").toList)
    { problem := ("x").toList, solution := ("y").toList } (by rfl)

theorem send_notification_request_xDelay (p b d : List Char) :
    (send_notification_request p b (some d)).xDelay =
      (if d.isEmpty then none
       else if d.getLast? = some 's' ∨ d.getLast? = some 'm' ∨
               d.getLast? = some 'h' ∨ d.getLast? = some 'd' then some d
       else none) := rfl

theorem send_notification_request_title (p b : List Char) (dl : Option (List Char)) :
    (send_notification_request p b dl).title =
      (p ++ rustTrim ((linesFirst b).getD (("Fermi Notification").toList))).take 100 := rfl

theorem send_notification_request_body (p b : List Char) (dl : Option (List Char)) :
    (send_notification_request p b dl).body = b := rfl

theorem rustTrim_dropTrailCR (l : List Char) : rustTrim (dropTrailCR l) = rustTrim l := by
  unfold dropTrailCR
  by_cases h : l.getLast? = some '\r'
  · rw [if_pos h]
    have hne : l ≠ [] := by
      intro hc
      rw [hc] at h
      simp at h
    have hlast : l.getLast hne = '\r' := by
      have h2 := List.getLast?_eq_getLast l hne
      rw [h] at h2
      exact (Option.some.inj h2).symm
    have hdecomp : l.dropLast ++ ['\r'] = l := by
      conv_rhs => rw [← List.dropLast_concat_getLast hne]
      rw [hlast]
    calc rustTrim l.dropLast
        = rustTrim (l.dropLast ++ ['\r']) := (rustTrim_append_ws (by decide)).symm
      _ = rustTrim l := by rw [hdecomp]
  · rw [if_neg h]

theorem rustTrim_linesFirst {b : List Char} (hb : b ≠ []) :
    rustTrim ((linesFirst b).getD (("Fermi Notification").toList)) =
      rustTrim (b.takeWhile (fun c => c ≠ '\n')) := by
  cases b with
  | nil => exact absurd rfl hb
  | cons c0 rest =>
    have hlf : linesFirst (c0 :: rest) =
        (if ((c0 :: rest).takeWhile (fun c => c ≠ '\n')).length < (c0 :: rest).length
         then some (dropTrailCR ((c0 :: rest).takeWhile (fun c => c ≠ '\n')))
         else some ((c0 :: rest).takeWhile (fun c => c ≠ '\n'))) := rfl
    rw [hlf]
    by_cases hlt : ((c0 :: rest).takeWhile (fun c => c ≠ '\n')).length < (c0 :: rest).length
    · rw [if_pos hlt]
      simp only [Option.getD_some]
      exact rustTrim_dropTrailCR _
    · rw [if_neg hlt]
      simp only [Option.getD_some]

/-- C1 (amended): the code checks only the final character of the delay
token. Every token matching the spec's number-plus-suffix grammar is
forwarded as `X-Delay`, and so is any non-empty token whose last character
is `s`, `m`, `h` or `d` (hence also `10mins` and `-5m`); the empty token
and tokens ending in any other character (such as `abc`) are silently
ignored: no delay is attached and the request is still built. -/
theorem c1_delay_validation :
    (∀ p b d, delayGrammar d →
      (send_notification_request p b (some d)).xDelay = some d) ∧
    (∀ p b d c, d.getLast? = some c → (c = 's' ∨ c = 'm' ∨ c = 'h' ∨ c = 'd') →
      (send_notification_request p b (some d)).xDelay = some d) ∧
    (∀ p b, (send_notification_request p b (some [])).xDelay = none) ∧
    (∀ p b d, d ≠ [] →
      d.getLast? ≠ some 's' → d.getLast? ≠ some 'm' →
      d.getLast? ≠ some 'h' → d.getLast? ≠ some 'd' →
      (send_notification_request p b (some d)).xDelay = none) := by
  have hfwd : ∀ p b d c, d.getLast? = some c → (c = 's' ∨ c = 'm' ∨ c = 'h' ∨ c = 'd') →
      (send_notification_request p b (some d)).xDelay = some d := by
    intro p b d c hlast hc
    rw [send_notification_request_xDelay]
    have hne : d.isEmpty = false := by
      cases d with
      | nil => simp at hlast
      | cons x xs => rfl
    rw [hne]
    simp only [Bool.false_eq_true, if_false]
    rw [if_pos]
    rcases hc with rfl | rfl | rfl | rfl
    · exact Or.inl hlast
    · exact Or.inr (Or.inl hlast)
    · exact Or.inr (Or.inr (Or.inl hlast))
    · exact Or.inr (Or.inr (Or.inr hlast))
  refine ⟨?_, hfwd, ?_, ?_⟩
  · intro p b d hg
    obtain ⟨ds, c, rfl, hds, hdig, hc⟩ := hg
    exact hfwd p b (ds ++ [c]) c (List.getLast?_concat ds) hc
  · intro p b
    rfl
  · intro p b d hne h1 h2 h3 h4
    rw [send_notification_request_xDelay]
    have hnf : d.isEmpty = false := by
      cases d with
      | nil => exact absurd rfl hne
      | cons x xs => rfl
    rw [hnf]
    simp only [Bool.false_eq_true, if_false]
    rw [if_neg]
    intro hc
    rcases hc with hc | hc | hc | hc
    · exact h1 hc
    · exact h2 hc
    · exact h3 hc
    · exact h4 hc

/-- Witness for C1: the grammar token `10m` is forwarded, the non-matching
token `abc` is silently dropped. -/
theorem c1_delay_validation_witness :
    (send_notification_request (("Problem: ").toList) (("body").toList)
        (some (("10m").toList))).xDelay = some (("10m").toList) ∧
    (send_notification_request (("Problem: ").toList) (("body").toList)
        (some (("abc").toList))).xDelay = none :=
  ⟨c1_delay_validation.1 (("Problem: ").toList) (("body").toList) (("10m").toList)
      ⟨("10").toList, 'm', by decide, by decide, by decide, Or.inr (Or.inl rfl)⟩,
   c1_delay_validation.2.2.2 (("Problem: ").toList) (("body").toList) (("abc").toList)
      (by decide) (by decide) (by decide) (by decide) (by decide)⟩

/-- Counterexample to C1 as stated: `10mins` does not match the duration
grammar, yet it ends in `s`, so the code forwards it as `X-Delay` instead
of treating it as absent. -/
theorem c1_delay_validation_counterexample :
    (send_notification_request (("Problem: ").toList) (("body").toList)
        (some (("10mins").toList))).xDelay = some (("10mins").toList) ∧
    (send_notification_request (("Problem: ").toList) (("body").toList)
        (some (("10mins").toList))).xDelay ≠ none :=
  ⟨rfl, by decide⟩

/-- C3 (amended, for a non-empty body): the title sent upstream is the
prefix concatenated with the body's first line (text up to the first
newline, or the whole body if none, trimmed), truncated to at most 100
characters — counted as characters of a `List Char`, so a character is
never cut — and the body is sent untruncated. -/
theorem c3_title_truncation (p b : List Char) (dl : Option (List Char)) (hb : b ≠ []) :
    (send_notification_request p b dl).title =
      (p ++ rustTrim (b.takeWhile (fun c => c ≠ '\n'))).take 100 ∧
    (send_notification_request p b dl).title.length ≤ 100 ∧
    (send_notification_request p b dl).body = b := by
  refine ⟨?_, ?_, rfl⟩
  · rw [send_notification_request_title, rustTrim_linesFirst hb]
  · rw [send_notification_request_title]
    exact List.length_take_le _ _

/-- Witness for C3: a concrete multi-line body keeps only its first line,
trimmed, in the title. -/
theorem c3_title_truncation_witness :
    (send_notification_request (("Problem: ").toList) (("How many?\nStep 1").toList)
        none).title =
      ((("Problem: ").toList ++
        rustTrim ((("How many?\nStep 1").toList).takeWhile (fun c => c ≠ '\n'))).take 100) :=
  (c3_title_truncation (("Problem: ").toList) (("How many?\nStep 1").toList) none
    (by decide)).1

/-- Counterexample to C3 as stated: for the empty body the claimed title
would be the bare prefix, but the code substitutes the default first line
`Fermi Notification`. -/
theorem c3_title_truncation_counterexample :
    (send_notification_request (("Problem: ").toList) [] none).title ≠
      ((("Problem: ").toList ++
        rustTrim (([] : List Char).takeWhile (fun c => c ≠ '\n'))).take 100) := by
  decide

/-- C9: on an empty message body, `send_notification` substitutes the
default first line `Fermi Notification`, so the title is the prefix
followed by `Fermi Notification` (truncated to 100 characters) rather
than the bare prefix. -/
theorem c9_empty_body_default (p : List Char) (dl : Option (List Char)) :
    (send_notification_request p [] dl).title =
      (p ++ ("Fermi Notification").toList).take 100 ∧
    ((p ++ ("Fermi Notification").toList).length ≤ 100 →
      (send_notification_request p [] dl).title = p ++ ("Fermi Notification").toList ∧
      (send_notification_request p [] dl).title ≠ p) := by
  have h1 : (send_notification_request p [] dl).title =
      (p ++ ("Fermi Notification").toList).take 100 := by
    rw [send_notification_request_title]
    rw [show rustTrim ((linesFirst ([] : List Char)).getD (("Fermi Notification").toList)) =
      ("Fermi Notification").toList from by decide]
  refine ⟨h1, fun hlen => ⟨?_, ?_⟩⟩
  · rw [h1, List.take_of_length_le hlen]
  · rw [h1, List.take_of_length_le hlen]
    intro hc
    have hl := congrArg List.length hc
    rw [List.length_append] at hl
    have hFN : (("Fermi Notification").toList).length = 18 := rfl
    omega

/-- Witness for C9: with prefix `Problem: ` and empty body the title is
`Problem: Fermi Notification`, not the bare prefix. -/
theorem c9_empty_body_default_witness :
    (send_notification_request (("Problem: ").toList) [] none).title =
      ("Problem: ").toList ++ ("Fermi Notification").toList ∧
    (send_notification_request (("Problem: ").toList) [] none).title ≠
      ("Problem: ").toList :=
  (c9_empty_body_default (("Problem: ").toList) none).2 (by decide)

/-- C4: the handler's three steps are strictly ordered and fail fast: a
generation failure surfaces the generator's error with no notification
attempted; a problem-notification failure surfaces that error and the
solution notification is never attempted; on success both calls happen in
order, the problem immediately and the solution with the `10m` delay. -/
theorem c4_pipeline_fail_fast :
    (∀ e notify, handle_fermi_request (Except.error e) notify = (Except.error e, [])) ∧
    (∀ est notify e, notify (problemCall est) = Except.error e →
      handle_fermi_request (Except.ok est) notify = (Except.error e, [problemCall est])) ∧
    (∀ est notify e, notify (problemCall est) = Except.ok () →
      notify (solutionCall est) = Except.error e →
      handle_fermi_request (Except.ok est) notify =
        (Except.error e, [problemCall est, solutionCall est])) ∧
    (∀ est notify, notify (problemCall est) = Except.ok () →
      notify (solutionCall est) = Except.ok () →
      handle_fermi_request (Except.ok est) notify =
        (Except.ok ("Fermi problem sent, solution scheduled for 10m delay."),
          [problemCall est, solutionCall est])) := by
  have hok : ∀ est notify, handle_fermi_request (Except.ok est) notify =
      (match notify (problemCall est) with
        | Except.error e => (Except.error e, [problemCall est])
        | Except.ok _ =>
          match notify (solutionCall est) with
          | Except.error e => (Except.error e, [problemCall est, solutionCall est])
          | Except.ok _ =>
            (Except.ok ("Fermi problem sent, solution scheduled for 10m delay."),
              [problemCall est, solutionCall est])) := fun est notify => rfl
  refine ⟨fun e notify => rfl, fun est notify e h => ?_, fun est notify e h1 h2 => ?_,
    fun est notify h1 h2 => ?_⟩
  · rw [hok, h]
  · rw [hok, h1, h2]
  · rw [hok, h1, h2]

/-- Witness for C4: a failing generator yields its error and an empty call
trace; a failing problem notification yields its error and only the
problem call in the trace. -/
theorem c4_pipeline_fail_fast_witness :
    handle_fermi_request (Except.error (AppError.GeminiApi ("boom")))
        (fun _ => Except.ok ()) = (Except.error (AppError.GeminiApi ("boom")), []) ∧
    handle_fermi_request
        (Except.ok { problem := ("p").toList, solution := ("s").toList })
        (fun _ => Except.error (AppError.Ntfy ("down"))) =
      (Except.error (AppError.Ntfy ("down")),
        [problemCall { problem := ("p").toList, solution := ("s").toList }]) :=
  ⟨c4_pipeline_fail_fast.1 (AppError.GeminiApi ("boom")) (fun _ => Except.ok ()),
   c4_pipeline_fail_fast.2.1 { problem := ("p").toList, solution := ("s").toList }
      (fun _ => Except.error (AppError.Ntfy ("down"))) (AppError.Ntfy ("down")) rfl⟩

/-- C5: the HTTP mapping sends upstream-generation, notification and
transport errors to `502 Bad Gateway` and parse, serialization,
configuration, I/O and internal errors to `500 Internal Server Error`;
the response body is a fixed category string chosen by the error variant
alone, independent of the carried message. -/
theorem c5_error_mapping :
    (∀ m, errorResponse (AppError.GeminiApi m) =
      { status := 502, body := "Gemini API Error" }) ∧
    (∀ m, errorResponse (AppError.Ntfy m) =
      { status := 502, body := "Notification Service Error" }) ∧
    (∀ m, errorResponse (AppError.Reqwest m) =
      { status := 502, body := "Upstream Service Error" }) ∧
    (∀ m, errorResponse (AppError.ParseError m) =
      { status := 500, body := "Content Parsing Error" }) ∧
    (∀ m, errorResponse (AppError.Serde m) =
      { status := 500, body := "Data Processing Error" }) ∧
    (∀ m, errorResponse (AppError.Config m) =
      { status := 500, body := "Configuration Error" }) ∧
    (∀ m, errorResponse (AppError.IoErr m) =
      { status := 500, body := "IO Error" }) ∧
    (∀ m, errorResponse (AppError.Internal m) =
      { status := 500, body := "Internal Server Error" }) ∧
    (∀ e, (errorResponse e).status = 502 ∨ (errorResponse e).status = 500) := by
  refine ⟨fun m => rfl, fun m => rfl, fun m => rfl, fun m => rfl, fun m => rfl,
    fun m => rfl, fun m => rfl, fun m => rfl, fun e => ?_⟩
  cases e <;> simp [errorResponse]

end FermiNotifier
